/-
Verification of the latency-estimation core of the pitch_tracking
timing-test notebook.

The notebook's analytical fragment is:
  thres = np.quantile(data, .95)
  above_thres = (data > thres)
  for trial in range(data.shape[0]):
      idx = np.argwhere(above_thres[trial, :])[0]
      delta = idx/epochs.info['sfreq'] + epochs.tmin
      latencies.append(delta)
  offset = np.mean(latencies)
  jitter = np.std(latencies)

We embed the epoch matrix as `List (List ℚ)` (one inner list per trial),
exact rationals standing for the floating-point samples.  The numeric
kernels (`npQuantile`, `firstCrossingIdx`, `npMean`, `npVariance`,
`npStd`) are embedded from the notebook's numpy calls: `np.quantile`
with its default linear interpolation, `np.argwhere(...)[0]` on a strict
`>` comparison, `np.mean`, and `np.std` (population standard deviation,
the numpy default).  The wrapper functions (`compute_threshold`,
`first_crossing_latency`, `summarize_latencies`,
`estimate_trigger_latency`) with their parameter validation and
per-trial exclusion policy are the spec's packaging of this fragment and
are modelled from the spec where the notebook has no counterpart.
-/
import Mathlib

namespace PitchTracking

/-- Error kinds of the spec's error model (§7): `InvalidParameter` for
out-of-range parameters, `EmptyInput` for missing data, and
`NoCrossingFound` for a trial with no sample above threshold. -/
inductive LatencyError where
  | InvalidParameter
  | EmptyInput
  | NoCrossingFound
  deriving DecidableEq

/-- Mean of a list of samples, embedding `np.mean`: sum divided by
length (for the empty list this is `0 / 0 = 0` in ℚ). -/
def npMean (l : List ℚ) : ℚ :=
  l.sum / l.length

/-- Mean squared deviation from the mean, the quantity of which `np.std`
takes the square root (population convention, divisor `N`). -/
def npVariance (l : List ℚ) : ℚ :=
  npMean (l.map (fun x => (x - npMean l) ^ 2))

/-- Embedding of `np.std`: the square root of the mean squared deviation
from the mean (numpy's default `ddof = 0`, i.e. population standard
deviation). -/
noncomputable def npStd (l : List ℚ) : ℝ :=
  Real.sqrt (npVariance l)

/-- Embedding of `np.quantile(l, q)` with numpy's default linear
interpolation: sort the data, take the virtual index `h = q * (n - 1)`,
and interpolate linearly between the samples at `⌊h⌋` and `⌊h⌋ + 1`
(the upper index clamped to `n - 1`). -/
def npQuantile (l : List ℚ) (q : ℚ) : ℚ :=
  let s := List.insertionSort (· ≤ ·) l
  let n := s.length
  let h := q * ((n : ℚ) - 1)
  let i := (⌊h⌋).toNat
  let lo := s.getD i 0
  let hi := s.getD (min (i + 1) (n - 1)) 0
  lo + (h - (i : ℚ)) * (hi - lo)

/-- Embedding of `np.argwhere(above_thres[trial, :])[0]` where
`above_thres = (data > thres)`: the first (lowest) index whose sample is
strictly greater than the threshold, `none` when no sample qualifies
(in the notebook that indexing would abort; the spec names this
condition `NoCrossingFound`). -/
def firstCrossingIdx (threshold : ℚ) : List ℚ → Option ℕ
  | [] => none
  | x :: rest =>
      if threshold < x then some 0
      else (firstCrossingIdx threshold rest).map (· + 1)

/-- Per-trial latency, embedding `delta = idx/sfreq + tmin` of the
notebook: the first strict crossing index divided by the sampling rate
plus the epoch start time; `NoCrossingFound` when no sample exceeds the
threshold. -/
def first_crossing_latency (trial : List ℚ) (threshold sampling_rate epoch_start_time : ℚ) :
    Except LatencyError ℚ :=
  match firstCrossingIdx threshold trial with
  | none => .error .NoCrossingFound
  | some k => .ok ((k : ℚ) / sampling_rate + epoch_start_time)

/-- Modelled from the spec: the notebook only has the inline call
`np.quantile(data, .95)` with a hard-coded quantile and no validation;
the spec's `compute_threshold` contract (§4.1) adds that the quantile
must be strictly between 0 and 1 (`InvalidParameter` otherwise) and the
matrix must be non-empty (`EmptyInput` otherwise).  The quantile kernel
itself is the notebook's `np.quantile` on the flattened matrix. -/
def compute_threshold (m : List (List ℚ)) (q : ℚ) : Except LatencyError ℚ :=
  if q ≤ 0 ∨ 1 ≤ q then .error .InvalidParameter
  else if m.flatten = [] then .error .EmptyInput
  else .ok (npQuantile m.flatten q)

/-- Modelled from the spec: the notebook computes `np.mean(latencies)`
and `np.std(latencies)` inline with no emptiness check; the spec's
`summarize_latencies` contract (§4.1) packages them as one function
failing with `EmptyInput` on an empty sequence.  The mean and standard
deviation kernels are the notebook's `np.mean` / `np.std`. -/
noncomputable def summarize_latencies (l : List ℚ) : Except LatencyError (ℚ × ℝ) :=
  if l = [] then .error .EmptyInput
  else .ok (npMean l, npStd l)

/-- Result of the top-level estimation: mean offset, jitter, and the
number of trials excluded for lack of a threshold crossing. -/
structure EstimateResult where
  offset : ℚ
  jitter : ℝ
  excluded : ℕ

/-- One trial's recovered latency: `some` latency when the trial has a
crossing, `none` when `first_crossing_latency` signals
`NoCrossingFound`. -/
def trialLatencyOpt (threshold sampling_rate epoch_start_time : ℚ) (row : List ℚ) :
    Option ℚ :=
  (first_crossing_latency row threshold sampling_rate epoch_start_time).toOption

/-- Whether a trial is excluded: no sample strictly above the
threshold. -/
def trialExcluded (threshold : ℚ) (row : List ℚ) : Bool :=
  (firstCrossingIdx threshold row).isNone

/-- Modelled from the spec: the notebook's loop body
`np.argwhere(above_thres[trial, :])[0]` aborts with an indexing error on
a trial with no crossing; the spec's `estimate_trigger_latency`
orchestration (§4.1, §7) instead excludes such a trial, counts it, and
summarizes the remaining trials, failing only when validation fails or
every trial is excluded.  Threshold, per-trial latency, and summary are
the notebook's kernels via `compute_threshold`,
`first_crossing_latency` and `summarize_latencies`. -/
noncomputable def estimate_trigger_latency (m : List (List ℚ))
    (sampling_rate epoch_start_time q : ℚ) : Except LatencyError EstimateResult :=
  if sampling_rate ≤ 0 then .error .InvalidParameter
  else
    match compute_threshold m q with
    | .error e => .error e
    | .ok thres =>
        match summarize_latencies
            (m.filterMap (trialLatencyOpt thres sampling_rate epoch_start_time)) with
        | .error e => .error e
        | .ok p => .ok ⟨p.1, p.2, m.countP (trialExcluded thres)⟩

/-- Minimum sample value of a list (0 for the empty list, which never
arises under the spec's non-emptiness invariant). -/
def listMin : List ℚ → ℚ
  | [] => 0
  | x :: rest => rest.foldl min x

/-- Maximum sample value of a list (0 for the empty list, which never
arises under the spec's non-emptiness invariant). -/
def listMax : List ℚ → ℚ
  | [] => 0
  | x :: rest => rest.foldl max x

/-- Population standard deviation written following the spec's words:
the square root of the mean squared deviation from the mean, with
divisor `N` (the length), samples addressed by index. -/
noncomputable def populationStdSpec (l : List ℚ) : ℝ :=
  Real.sqrt (((∑ i in Finset.range l.length, (l.getD i 0 - l.sum / l.length) ^ 2) /
    l.length : ℚ))

/-- A first-crossing index is always a valid index into the trial. -/
lemma firstCrossingIdx_lt_length (threshold : ℚ) :
    ∀ (trial : List ℚ) (k : ℕ), firstCrossingIdx threshold trial = some k →
      k < trial.length := by
  intro trial
  induction trial with
  | nil => intro k h; simp [firstCrossingIdx] at h
  | cons x rest ih =>
      intro k h
      by_cases hx : threshold < x
      · simp [firstCrossingIdx, hx] at h
        simp only [List.length_cons]
        omega
      · simp [firstCrossingIdx, hx, Option.map_eq_some'] at h
        obtain ⟨j, hj, rfl⟩ := h
        have := ih j hj
        simp
        omega

/-- `firstCrossingIdx` returns exactly the least index whose sample is
strictly above the threshold. -/
lemma firstCrossingIdx_eq_some (threshold : ℚ) :
    ∀ (trial : List ℚ) (k : ℕ), k < trial.length →
      threshold < trial.getD k 0 →
      (∀ j, j < k → trial.getD j 0 ≤ threshold) →
      firstCrossingIdx threshold trial = some k := by
  intro trial
  induction trial with
  | nil => intro k hk; simp at hk
  | cons x rest ih =>
      intro k hk hcross hmin
      cases k with
      | zero =>
          simp only [List.getD_cons_zero] at hcross
          simp [firstCrossingIdx, hcross]
      | succ k =>
          have hx : ¬ threshold < x := by
            have := hmin 0 (Nat.succ_pos k)
            simp only [List.getD_cons_zero] at this
            exact not_lt.mpr this
          have hrec : firstCrossingIdx threshold rest = some k := by
            apply ih
            · simpa using hk
            · simpa using hcross
            · intro j hj
              have := hmin (j + 1) (Nat.succ_lt_succ hj)
              simpa using this
          simp [firstCrossingIdx, hx, hrec]

/-- C2: for every trial, threshold, positive sampling rate and epoch
start time, if `k` is the lowest index whose sample is strictly greater
than the threshold (samples equal to the threshold never qualify, so
they may occur before `k`), then `first_crossing_latency` returns
exactly `k / sampling_rate + epoch_start_time`, with no interpolation
between samples. -/
theorem first_crossing_latency_exact (trial : List ℚ)
    (threshold sampling_rate epoch_start_time : ℚ) (k : ℕ)
    (hsr : 0 < sampling_rate)
    (hk : k < trial.length)
    (hcross : threshold < trial.getD k 0)
    (hmin : ∀ j, j < k → trial.getD j 0 ≤ threshold) :
    first_crossing_latency trial threshold sampling_rate epoch_start_time =
      .ok ((k : ℚ) / sampling_rate + epoch_start_time) := by
  unfold first_crossing_latency
  rw [firstCrossingIdx_eq_some threshold trial k hk hcross hmin]

/-- Witness for C2: in the trial `[1, 2, 3]` with threshold `1`, the
sample at index 0 equals the threshold and does not qualify; the
crossing is at index 1 and the latency is `1 / 2 + (-1)`. -/
theorem first_crossing_latency_exact_witness :
    first_crossing_latency [1, 2, 3] 1 2 (-1) = .ok ((1 : ℚ) / 2 + (-1)) :=
  first_crossing_latency_exact [1, 2, 3] 1 2 (-1) 1 (by norm_num)
    (by simp) (by norm_num) (by
      intro j hj
      have hj0 : j = 0 := by omega
      subst hj0
      norm_num)

/-- C3: `compute_threshold` rejects every quantile that is not strictly
between 0 and 1 with `InvalidParameter`, whatever the matrix. -/
theorem compute_threshold_invalid_quantile (m : List (List ℚ)) (q : ℚ)
    (hq : q ≤ 0 ∨ 1 ≤ q) :
    compute_threshold m q = .error .InvalidParameter := by
  unfold compute_threshold
  rw [if_pos hq]

/-- Witness for C3: quantile exactly 0 and exactly 1 both raise
`InvalidParameter`. -/
theorem compute_threshold_invalid_quantile_witness :
    compute_threshold [[1]] 0 = .error .InvalidParameter ∧
      compute_threshold [[1]] 1 = .error .InvalidParameter :=
  ⟨compute_threshold_invalid_quantile [[1]] 0 (Or.inl le_rfl),
    compute_threshold_invalid_quantile [[1]] 1 (Or.inr le_rfl)⟩

/-- C4: `summarize_latencies` on the empty sequence fails with
`EmptyInput` and returns no numeric pair. -/
theorem summarize_latencies_empty :
    summarize_latencies [] = .error .EmptyInput := by
  unfold summarize_latencies
  rw [if_pos rfl]

/-- C10: every latency the per-trial computation returns lies between
the epoch start time and the epoch start time plus
`(length - 1) / sampling_rate`, because the crossing index is a valid
sample index. -/
theorem first_crossing_latency_bounded (trial : List ℚ)
    (threshold sampling_rate epoch_start_time d : ℚ)
    (hsr : 0 < sampling_rate)
    (h : first_crossing_latency trial threshold sampling_rate epoch_start_time = .ok d) :
    epoch_start_time ≤ d ∧
      d ≤ epoch_start_time + ((trial.length : ℚ) - 1) / sampling_rate := by
  unfold first_crossing_latency at h
  cases hidx : firstCrossingIdx threshold trial with
  | none => rw [hidx] at h; exact absurd h (by simp)
  | some k =>
      rw [hidx] at h
      have hd : (k : ℚ) / sampling_rate + epoch_start_time = d := by
        simpa using h
      have hk := firstCrossingIdx_lt_length threshold trial k hidx
      have hk1 : (k : ℚ) ≤ (trial.length : ℚ) - 1 := by
        have : (k : ℚ) + 1 ≤ (trial.length : ℚ) := by exact_mod_cast hk
        linarith
      constructor
      · have h0 : (0 : ℚ) ≤ (k : ℚ) / sampling_rate :=
          div_nonneg (Nat.cast_nonneg k) hsr.le
        linarith
      · have hdiv : (k : ℚ) / sampling_rate ≤ ((trial.length : ℚ) - 1) / sampling_rate :=
          (div_le_div_right hsr).mpr hk1
        linarith

/-- Witness for C10: the latency of trial `[0, 2, 3]` (threshold 1,
sampling rate 2, epoch start 0) is `1/2`, inside
`[0, 0 + (3 - 1) / 2]`. -/
theorem first_crossing_latency_bounded_witness :
    (0 : ℚ) ≤ 1 / 2 ∧
      (1 / 2 : ℚ) ≤ 0 + ((([(0 : ℚ), 2, 3]).length : ℚ) - 1) / 2 :=
  first_crossing_latency_bounded [0, 2, 3] 1 2 0 (1 / 2) (by norm_num)
    (by norm_num [first_crossing_latency, firstCrossingIdx])

/-- C6: `summarize_latencies` on `N ≥ 1` copies of `v` returns the pair
`(v, 0)`: the mean offset is `v` and the jitter is zero. -/
theorem summarize_latencies_replicate (N : ℕ) (v : ℚ) (hN : 1 ≤ N) :
    summarize_latencies (List.replicate N v) = .ok (v, 0) := by
  have hNz : N ≠ 0 := by omega
  have hne : List.replicate N v ≠ [] := by
    simp [List.replicate_eq_nil_iff, hNz]
  have hNQ : (N : ℚ) ≠ 0 := Nat.cast_ne_zero.mpr hNz
  have hmean : npMean (List.replicate N v) = v := by
    unfold npMean
    rw [List.sum_replicate, List.length_replicate, nsmul_eq_mul]
    exact mul_div_cancel_left₀ v hNQ
  have hvar : npVariance (List.replicate N v) = 0 := by
    unfold npVariance
    rw [List.map_replicate, hmean]
    unfold npMean
    rw [List.sum_replicate, List.length_replicate]
    simp
  unfold summarize_latencies
  rw [if_neg hne, hmean]
  unfold npStd
  rw [hvar]
  norm_num

/-- Witness for C6: three copies of `5` summarize to `(5, 0)`. -/
theorem summarize_latencies_replicate_witness :
    summarize_latencies (List.replicate 3 5) = .ok (5, 0) :=
  summarize_latencies_replicate 3 5 (by norm_num)

/-- Sum of a mapped list as a sum over indices, bridging the fold-based
embedding and the index-based spec formulation. -/
lemma sum_map_eq_sum_range (f : ℚ → ℚ) :
    ∀ l : List ℚ, (l.map f).sum = ∑ i in Finset.range l.length, f (l.getD i 0) := by
  intro l
  induction l with
  | nil => simp
  | cons x rest ih =>
      simp only [List.map_cons, List.sum_cons, List.length_cons]
      rw [Finset.sum_range_succ']
      simp only [List.getD_cons_succ, List.getD_cons_zero]
      rw [← ih]
      exact add_comm _ _

/-- C7: the jitter computed by the embedded `np.std` is the population
standard deviation — the square root of the mean squared deviation from
the mean with divisor `N` (the length), not `N - 1`. -/
theorem npStd_is_population_std (l : List ℚ) (h : l ≠ []) :
    npStd l = populationStdSpec l := by
  have hvar : npVariance l =
      (∑ i in Finset.range l.length, (l.getD i 0 - l.sum / l.length) ^ 2) / l.length := by
    unfold npVariance npMean
    rw [List.length_map, sum_map_eq_sum_range]
  unfold npStd populationStdSpec
  rw [hvar]

/-- Witness for C7: the jitter of `[1, 3]` equals its population
standard deviation. -/
theorem npStd_is_population_std_witness :
    npStd [1, 3] = populationStdSpec [1, 3] :=
  npStd_is_population_std [1, 3] (by simp)

/-- Folding `min` over a list never exceeds the initial accumulator. -/
lemma foldl_min_le_init : ∀ (t : List ℚ) (a : ℚ), t.foldl min a ≤ a := by
  intro t
  induction t with
  | nil => intro a; simp
  | cons y t ih =>
      intro a
      simp only [List.foldl_cons]
      exact le_trans (ih (min a y)) (min_le_left a y)

/-- Folding `min` over a list never exceeds any member. -/
lemma foldl_min_le_mem : ∀ (t : List ℚ) (a x : ℚ), x ∈ t → t.foldl min a ≤ x := by
  intro t
  induction t with
  | nil => intro a x hx; simp at hx
  | cons y t ih =>
      intro a x hx
      simp only [List.foldl_cons]
      rcases List.mem_cons.mp hx with rfl | hx
      · exact le_trans (foldl_min_le_init t (min a x)) (min_le_right a x)
      · exact ih (min a y) x hx

/-- The list minimum is a lower bound for every member. -/
lemma listMin_le_of_mem {l : List ℚ} {x : ℚ} (hx : x ∈ l) : listMin l ≤ x := by
  cases l with
  | nil => simp at hx
  | cons a t =>
      rcases List.mem_cons.mp hx with rfl | hx
      · exact foldl_min_le_init t x
      · exact foldl_min_le_mem t a x hx

/-- Folding `max` over a list is at least the initial accumulator. -/
lemma init_le_foldl_max : ∀ (t : List ℚ) (a : ℚ), a ≤ t.foldl max a := by
  intro t
  induction t with
  | nil => intro a; simp
  | cons y t ih =>
      intro a
      simp only [List.foldl_cons]
      exact le_trans (le_max_left a y) (ih (max a y))

/-- Folding `max` over a list is at least any member. -/
lemma mem_le_foldl_max : ∀ (t : List ℚ) (a x : ℚ), x ∈ t → x ≤ t.foldl max a := by
  intro t
  induction t with
  | nil => intro a x hx; simp at hx
  | cons y t ih =>
      intro a x hx
      simp only [List.foldl_cons]
      rcases List.mem_cons.mp hx with rfl | hx
      · exact le_trans (le_max_right a x) (init_le_foldl_max t (max a x))
      · exact ih (max a y) x hx

/-- The list maximum is an upper bound for every member. -/
lemma le_listMax_of_mem {l : List ℚ} {x : ℚ} (hx : x ∈ l) : x ≤ listMax l := by
  cases l with
  | nil => simp at hx
  | cons a t =>
      rcases List.mem_cons.mp hx with rfl | hx
      · exact init_le_foldl_max t x
      · exact mem_le_foldl_max t a x hx

/-- Linear interpolation with a coefficient in `[0, 1]` stays between
its two endpoints. -/
lemma interp_bounds {lo hi g : ℚ} (hg0 : 0 ≤ g) (hg1 : g ≤ 1) (hle : lo ≤ hi) :
    lo ≤ lo + g * (hi - lo) ∧ lo + g * (hi - lo) ≤ hi := by
  constructor
  · nlinarith
  · nlinarith

/-- The linearly interpolated quantile of a non-empty list, for any
quantile in `[0, 1]`, lies between the list's minimum and maximum. -/
lemma npQuantile_bounds (l : List ℚ) (q : ℚ) (hl : l ≠ [])
    (hq0 : 0 ≤ q) (hq1 : q ≤ 1) :
    listMin l ≤ npQuantile l q ∧ npQuantile l q ≤ listMax l := by
  have hperm : List.Perm (List.insertionSort (· ≤ ·) l) l := List.perm_insertionSort _ l
  have hsorted : List.Sorted (· ≤ ·) (List.insertionSort (· ≤ ·) l) :=
    List.sorted_insertionSort _ l
  simp only [npQuantile]
  set s := List.insertionSort (· ≤ ·) l with hs_def
  set n := s.length with hn_def
  set h := q * ((n : ℚ) - 1) with hh_def
  set i := (⌊h⌋).toNat with hi_def
  set j := min (i + 1) (n - 1) with hj_def
  have hslen : s ≠ [] := by
    intro hnil
    rw [hnil] at hperm
    exact hl hperm.symm.eq_nil
  have hn1 : 1 ≤ n := List.length_pos.mpr hslen
  have hn1Q : (0 : ℚ) ≤ (n : ℚ) - 1 := by
    have : (1 : ℚ) ≤ (n : ℚ) := by exact_mod_cast hn1
    linarith
  have hh0 : 0 ≤ h := mul_nonneg hq0 hn1Q
  have hh1 : h ≤ (n : ℚ) - 1 := by
    calc h = q * ((n : ℚ) - 1) := rfl
    _ ≤ 1 * ((n : ℚ) - 1) := mul_le_mul_of_nonneg_right hq1 hn1Q
    _ = (n : ℚ) - 1 := one_mul _
  have hfl0 : 0 ≤ ⌊h⌋ := Int.floor_nonneg.mpr hh0
  have hiQ : (i : ℚ) = ((⌊h⌋ : ℤ) : ℚ) := by
    rw [hi_def]
    exact_mod_cast congrArg (fun z : ℤ => (z : ℚ)) (Int.toNat_of_nonneg hfl0)
  have hile : (i : ℚ) ≤ h := by
    rw [hiQ]
    exact Int.floor_le h
  have hg1 : h - (i : ℚ) < 1 := by
    rw [hiQ]
    have := Int.lt_floor_add_one h
    linarith
  have hg0 : 0 ≤ h - (i : ℚ) := by linarith
  have hin : i + 1 ≤ n := by
    have h2 : (i : ℚ) + 1 ≤ (n : ℚ) := by
      have := le_trans hile hh1
      linarith
    exact_mod_cast h2
  have hilt : i < n := by omega
  have hjlt : j < n := by omega
  have hij : i ≤ j := by omega
  have hlo : s.getD i 0 = s.get ⟨i, hilt⟩ := List.getD_eq_get s 0 hilt
  have hhi : s.getD j 0 = s.get ⟨j, hjlt⟩ := List.getD_eq_get s 0 hjlt
  have hlohi : s.get ⟨i, hilt⟩ ≤ s.get ⟨j, hjlt⟩ :=
    hsorted.rel_get_of_le (Fin.mk_le_mk.mpr hij)
  have hmem_lo : s.get ⟨i, hilt⟩ ∈ l := hperm.subset (s.get_mem i hilt)
  have hmem_hi : s.get ⟨j, hjlt⟩ ∈ l := hperm.subset (s.get_mem j hjlt)
  have hib := interp_bounds hg0 hg1.le hlohi
  rw [hlo, hhi]
  constructor
  · exact le_trans (listMin_le_of_mem hmem_lo) hib.1
  · exact le_trans hib.2 (le_listMax_of_mem hmem_hi)

/-- C5: on a matrix with at least one trial, every trial non-empty, and
a quantile strictly between 0 and 1, `compute_threshold` succeeds and
its value lies between the minimum and the maximum sample of the
matrix. -/
theorem compute_threshold_in_range (m : List (List ℚ)) (q : ℚ)
    (hm : m ≠ []) (hrows : ∀ r ∈ m, r ≠ []) (hq0 : 0 < q) (hq1 : q < 1) :
    compute_threshold m q = .ok (npQuantile m.flatten q) ∧
      listMin m.flatten ≤ npQuantile m.flatten q ∧
      npQuantile m.flatten q ≤ listMax m.flatten := by
  have hflat : m.flatten ≠ [] := by
    obtain ⟨r, hr⟩ := List.exists_mem_of_ne_nil m hm
    intro hnil
    exact hrows r hr (List.flatten_eq_nil_iff.mp hnil r hr)
  have hbounds := npQuantile_bounds m.flatten q hflat hq0.le hq1.le
  refine ⟨?_, hbounds.1, hbounds.2⟩
  unfold compute_threshold
  rw [if_neg (by push_neg; exact ⟨hq0, hq1⟩), if_neg hflat]

/-- Witness for C5: the median-style quantile of `[[1, 3], [2, 4]]` is
returned successfully and lies between the matrix minimum and
maximum. -/
theorem compute_threshold_in_range_witness :
    compute_threshold [[1, 3], [2, 4]] (1 / 2) =
        .ok (npQuantile ([[(1 : ℚ), 3], [2, 4]]).flatten (1 / 2)) ∧
      listMin ([[(1 : ℚ), 3], [2, 4]]).flatten ≤
        npQuantile ([[(1 : ℚ), 3], [2, 4]]).flatten (1 / 2) ∧
      npQuantile ([[(1 : ℚ), 3], [2, 4]]).flatten (1 / 2) ≤
        listMax ([[(1 : ℚ), 3], [2, 4]]).flatten :=
  compute_threshold_in_range [[1, 3], [2, 4]] (1 / 2) (by simp)
    (by
      intro r hr
      rcases List.mem_cons.mp hr with rfl | hr
      · simp
      · rcases List.mem_cons.mp hr with rfl | hr
        · simp
        · simp at hr)
    (by norm_num) (by norm_num)

/-- C8: the estimation is deterministic: two runs on equal epoch
matrices, sampling rates, epoch start times and quantiles return equal
(offset, jitter, excluded-count) results.  The embedding is a total
pure function of its four arguments, so no state outside the inputs is
read or written. -/
theorem estimate_trigger_latency_deterministic
    (m₁ m₂ : List (List ℚ)) (sr₁ sr₂ t₁ t₂ q₁ q₂ : ℚ)
    (hm : m₁ = m₂) (hsr : sr₁ = sr₂) (ht : t₁ = t₂) (hq : q₁ = q₂) :
    estimate_trigger_latency m₁ sr₁ t₁ q₁ = estimate_trigger_latency m₂ sr₂ t₂ q₂ := by
  subst hm
  subst hsr
  subst ht
  subst hq
  rfl

/-- Witness for C8: two runs on the same one-trial matrix agree. -/
theorem estimate_trigger_latency_deterministic_witness :
    estimate_trigger_latency [[1]] 1 0 (1 / 2) = estimate_trigger_latency [[1]] 1 0 (1 / 2) :=
  estimate_trigger_latency_deterministic [[1]] [[1]] 1 1 0 0 (1 / 2) (1 / 2)
    rfl rfl rfl rfl

/-- The sorted data, hence the interpolated quantile, only depends on
the multiset of samples. -/
lemma npQuantile_perm {l₁ l₂ : List ℚ} (h : List.Perm l₁ l₂) (q : ℚ) :
    npQuantile l₁ q = npQuantile l₂ q := by
  have hs : List.insertionSort (· ≤ ·) l₁ = List.insertionSort (· ≤ ·) l₂ :=
    List.eq_of_perm_of_sorted
      ((List.perm_insertionSort _ l₁).trans (h.trans (List.perm_insertionSort _ l₂).symm))
      (List.sorted_insertionSort _ l₁) (List.sorted_insertionSort _ l₂)
  unfold npQuantile
  rw [hs]

/-- The threshold computation only depends on the multiset of trials. -/
lemma compute_threshold_perm {m₁ m₂ : List (List ℚ)} (hp : List.Perm m₁ m₂) (q : ℚ) :
    compute_threshold m₁ q = compute_threshold m₂ q := by
  have hfl : List.Perm m₁.flatten m₂.flatten := hp.flatten
  unfold compute_threshold
  by_cases hq : q ≤ 0 ∨ 1 ≤ q
  · rw [if_pos hq, if_pos hq]
  · rw [if_neg hq, if_neg hq]
    by_cases hnil : m₁.flatten = []
    · have h2 : m₂.flatten = [] := (hnil ▸ hfl).symm.eq_nil
      rw [if_pos hnil, if_pos h2]
    · have h2 : m₂.flatten ≠ [] := fun hn => hnil (hn ▸ hfl).eq_nil
      rw [if_neg hnil, if_neg h2, npQuantile_perm hfl q]

/-- The mean only depends on the multiset of latencies. -/
lemma npMean_perm {l₁ l₂ : List ℚ} (h : List.Perm l₁ l₂) : npMean l₁ = npMean l₂ := by
  unfold npMean
  rw [h.sum_eq, h.length_eq]

/-- The mean squared deviation only depends on the multiset of
latencies. -/
lemma npVariance_perm {l₁ l₂ : List ℚ} (h : List.Perm l₁ l₂) :
    npVariance l₁ = npVariance l₂ := by
  unfold npVariance
  rw [npMean_perm h]
  exact npMean_perm (h.map _)

/-- The summary statistics only depend on the multiset of latencies. -/
lemma summarize_latencies_perm {l₁ l₂ : List ℚ} (h : List.Perm l₁ l₂) :
    summarize_latencies l₁ = summarize_latencies l₂ := by
  unfold summarize_latencies
  by_cases hnil : l₁ = []
  · have h2 : l₂ = [] := (hnil ▸ h).symm.eq_nil
    rw [if_pos hnil, if_pos h2]
  · have h2 : l₂ ≠ [] := fun hn => hnil (hn ▸ h).eq_nil
    rw [if_neg hnil, if_neg h2, npMean_perm h]
    unfold npStd
    rw [npVariance_perm h]

/-- C9: permuting the trial rows of the epoch matrix does not change the
estimate: threshold, mean offset, jitter and excluded-trial count (and
any error outcome) are identical on the permuted matrix. -/
theorem estimate_trigger_latency_perm (m₁ m₂ : List (List ℚ)) (sr t0 q : ℚ)
    (hp : List.Perm m₁ m₂) :
    estimate_trigger_latency m₁ sr t0 q = estimate_trigger_latency m₂ sr t0 q := by
  unfold estimate_trigger_latency
  by_cases hsr : sr ≤ 0
  · rw [if_pos hsr, if_pos hsr]
  · rw [if_neg hsr, if_neg hsr, compute_threshold_perm hp q]
    cases hct : compute_threshold m₂ q with
    | error e => rfl
    | ok thres =>
        have hlat : List.Perm (m₁.filterMap (trialLatencyOpt thres sr t0))
            (m₂.filterMap (trialLatencyOpt thres sr t0)) :=
          hp.filterMap _
        dsimp only
        rw [summarize_latencies_perm hlat]
        cases hsum : summarize_latencies (m₂.filterMap (trialLatencyOpt thres sr t0)) with
        | error e => rfl
        | ok p =>
            rw [hp.countP_eq (trialExcluded thres)]

/-- Witness for C9: swapping the two trials of a two-trial matrix leaves
the estimate unchanged. -/
theorem estimate_trigger_latency_perm_witness :
    estimate_trigger_latency [[1, 3], [2, 4]] 1 0 (1 / 2) =
      estimate_trigger_latency [[2, 4], [1, 3]] 1 0 (1 / 2) :=
  estimate_trigger_latency_perm [[1, 3], [2, 4]] [[2, 4], [1, 3]] 1 0 (1 / 2)
    (List.Perm.swap [2, 4] [1, 3] [])

/-- An excluded trial contributes no latency. -/
lemma trialLatencyOpt_none_of_excluded {threshold : ℚ} (sr t0 : ℚ) {row : List ℚ}
    (h : trialExcluded threshold row = true) :
    trialLatencyOpt threshold sr t0 row = none := by
  unfold trialExcluded at h
  unfold trialLatencyOpt first_crossing_latency
  cases hidx : firstCrossingIdx threshold row with
  | none => rfl
  | some k => rw [hidx] at h; simp at h

/-- A non-excluded trial contributes a latency. -/
lemma trialLatencyOpt_some_of_not_excluded {threshold : ℚ} (sr t0 : ℚ) {row : List ℚ}
    (h : trialExcluded threshold row = false) :
    ∃ v, trialLatencyOpt threshold sr t0 row = some v := by
  unfold trialExcluded at h
  unfold trialLatencyOpt first_crossing_latency
  cases hidx : firstCrossingIdx threshold row with
  | none => rw [hidx] at h; simp at h
  | some k => exact ⟨(k : ℚ) / sr + t0, rfl⟩

/-- C1: on an epoch matrix containing a trial `r` with no sample above
the threshold while some other trial does cross, the estimation
completes without aborting: trial `r` is excluded from the latency list,
the excluded-trial counter is exactly one more than the count over the
remaining trials, and the summary statistics are taken over the
remaining trials only. -/
theorem estimate_trigger_latency_excludes
    (pre post : List (List ℚ)) (r : List ℚ) (sr t0 q thr : ℚ)
    (hq : ¬(q ≤ 0 ∨ 1 ≤ q)) (hsr : ¬ sr ≤ 0)
    (hflat : (pre ++ r :: post).flatten ≠ [])
    (hthr : thr = npQuantile (pre ++ r :: post).flatten q)
    (hr : trialExcluded thr r = true)
    (hcross : ∃ r', r' ∈ pre ++ post ∧ trialExcluded thr r' = false) :
    estimate_trigger_latency (pre ++ r :: post) sr t0 q =
      .ok ⟨npMean ((pre ++ post).filterMap (trialLatencyOpt thr sr t0)),
        npStd ((pre ++ post).filterMap (trialLatencyOpt thr sr t0)),
        (pre ++ post).countP (trialExcluded thr) + 1⟩ := by
  have hct : compute_threshold (pre ++ r :: post) q = .ok thr := by
    unfold compute_threshold
    rw [if_neg hq, if_neg hflat, hthr]
  have hfm : (pre ++ r :: post).filterMap (trialLatencyOpt thr sr t0) =
      (pre ++ post).filterMap (trialLatencyOpt thr sr t0) := by
    rw [List.filterMap_append, List.filterMap_append,
      List.filterMap_cons_none (trialLatencyOpt_none_of_excluded sr t0 hr)]
  have hlats_ne : (pre ++ post).filterMap (trialLatencyOpt thr sr t0) ≠ [] := by
    obtain ⟨r', hmem, hkey⟩ := hcross
    obtain ⟨v, hv⟩ := trialLatencyOpt_some_of_not_excluded sr t0 hkey
    exact List.ne_nil_of_mem (List.mem_filterMap.mpr ⟨r', hmem, hv⟩)
  have hsum : summarize_latencies ((pre ++ post).filterMap (trialLatencyOpt thr sr t0)) =
      .ok (npMean ((pre ++ post).filterMap (trialLatencyOpt thr sr t0)),
        npStd ((pre ++ post).filterMap (trialLatencyOpt thr sr t0))) := by
    unfold summarize_latencies
    rw [if_neg hlats_ne]
  have hcnt : (pre ++ r :: post).countP (trialExcluded thr) =
      (pre ++ post).countP (trialExcluded thr) + 1 := by
    rw [List.countP_append, List.countP_cons, List.countP_append, hr]
    simp
    omega
  unfold estimate_trigger_latency
  rw [if_neg hsr, hct]
  dsimp only
  rw [hfm, hsum]
  dsimp only
  rw [hcnt]

/-- Witness for C1: in the two-trial matrix `[[0, 0, 5], [0, 0, 0]]`
with quantile `1/2` (threshold 0), the second trial never crosses and is
excluded with count 1, and the run returns the summary of the first
trial. -/
theorem estimate_trigger_latency_excludes_witness :
    estimate_trigger_latency [[0, 0, 5], [0, 0, 0]] 1 0 (1 / 2) =
      .ok ⟨npMean (([[(0 : ℚ), 0, 5]]).filterMap (trialLatencyOpt 0 1 0)),
        npStd (([[(0 : ℚ), 0, 5]]).filterMap (trialLatencyOpt 0 1 0)),
        ([[(0 : ℚ), 0, 5]]).countP (trialExcluded 0) + 1⟩ := by
  have h := estimate_trigger_latency_excludes [[0, 0, 5]] [] [0, 0, 0] 1 0 (1 / 2) 0
    (by norm_num) (by norm_num) (by simp)
    (by
      symm
      have hs : List.insertionSort (· ≤ ·)
          ((([[0, 0, 5]] : List (List ℚ)) ++ [0, 0, 0] :: []).flatten) =
          [0, 0, 0, 0, 0, 5] := by decide
      unfold npQuantile
      rw [hs]
      norm_num
      simp)
    (by decide)
    ⟨[0, 0, 5], by simp, by decide⟩
  simpa using h

end PitchTracking
